import Mathlib

/-!
Shallow embedding of `src/zpaq-backup.py`, a small incremental-backup driver
around the zpaq archiver, together with proofs about its core functions:
`matches'`, `walk`, `batch`, `zpaq_path`, `zpaq_increments`, `zpaq_add`,
`gitignored`, and `dotfile`.

Modelling conventions:
* Python strings are `String`, Python lists are `List`.
* Filesystem paths are lists of path segments (`List String`); appending a
  segment to the list corresponds to the source's string concatenation with
  a slash separator.
* `Optional` pattern lists are plain lists; the code treats `None` like the
  empty sequence (`accepts or ()`), so an absent list is `[]`.
* The filesystem seen by the tree walk is a finite association list from a
  directory's path to the names of its entries in `os.listdir` order; a path
  is a directory exactly when the filesystem stores a listing for it.
* Loops written as `while` in Python become recursion with an explicit fuel
  argument chosen at the call site to dominate the loop's iteration count
  (every iteration strictly decreases a measure which the fuel bounds);
  fuelled definitions keep every value kernel-computable.
* The exit status of an external archiver invocation is an `Int` produced by
  an oracle function of the invoked batch.
-/

namespace ZpaqBackup

/-- Membership of a character in the body of a `[...]` character class, with
`a-b` ranges as produced by `fnmatch.translate`; a dash without a right-hand
neighbour is a literal member. -/
def inClass (c : Char) : List Char → Bool
  | [] => false
  | a :: '-' :: b :: rest => (decide (a ≤ c) && decide (c ≤ b)) || inClass c rest
  | a :: rest => (a == c) || inClass c rest

/-- Scan for the closing bracket of a character class: the content before the
first closing bracket and the rest of the pattern, or `none` when the class
is never closed (`fnmatch` then treats the opening bracket as literal). -/
def splitClose : List Char → Option (List Char × List Char)
  | [] => none
  | ']' :: rest => some ([], rest)
  | c :: rest => (splitClose rest).map (fun pr => (c :: pr.1, pr.2))

/-- Class content scan allowing a literal closing bracket as first character,
as `fnmatch.translate` does. -/
def scanClassCore (ps : List Char) : Option (List Char × List Char) :=
  match ps with
  | ']' :: t => (splitClose t).map (fun pr => (']' :: pr.1, pr.2))
  | _ => splitClose ps

/-- Parse a character class after its opening bracket: optional leading
negation marker, then content up to the closing bracket. -/
def scanClass (ps : List Char) : Option (Bool × List Char × List Char) :=
  match ps with
  | '!' :: t => (scanClassCore t).map (fun pr => (true, pr.1, pr.2))
  | _ => (scanClassCore ps).map (fun pr => (false, pr.1, pr.2))

/-- Fuelled glob matcher: `globMatchF fuel s p` tells whether the name `s`
matches the pattern `p` under the star / single-character / class wildcard
semantics of Python's `fnmatch.fnmatch` on a case-sensitive platform.
Every recursive call strictly decreases `s.length + p.length`, so any fuel
above that sum lets the match run to completion. -/
def globMatchF : Nat → List Char → List Char → Bool
  | 0, _, _ => false
  | _ + 1, s, [] => s.isEmpty
  | fuel + 1, s, '*' :: ps =>
    globMatchF fuel s ps ||
      (match s with
       | [] => false
       | _ :: s2 => globMatchF fuel s2 ('*' :: ps))
  | fuel + 1, s, '?' :: ps =>
    (match s with
     | [] => false
     | _ :: s2 => globMatchF fuel s2 ps)
  | fuel + 1, s, '[' :: ps =>
    (match scanClass ps with
     | none =>
       match s with
       | [] => false
       | c :: s2 => (c == '[') && globMatchF fuel s2 ps
     | some (neg, content, rest) =>
       match s with
       | [] => false
       | c :: s2 =>
         (if neg then !(inClass c content) else inClass c content) &&
           globMatchF fuel s2 rest)
  | fuel + 1, s, c :: ps =>
    (match s with
     | [] => false
     | c2 :: s2 => (c == c2) && globMatchF fuel s2 ps)

/-- Python `fnmatch.fnmatch(name, pat)` on a posix (case-preserving)
platform. -/
def fnmatch (nm pat : String) : Bool :=
  globMatchF (nm.toList.length + pat.toList.length + 1) nm.toList pat.toList

/-- One scan loop of `matches'` (src/zpaq-backup.py lines 23-28): walk the
pattern list and stop at the first pattern the value matches. -/
def anyMatch (value : String) : List String → Bool
  | [] => false
  | pat :: rest => if fnmatch value pat then true else anyMatch value rest

/-- `matches'(value, accepts, rejects)` for a single string value
(src/zpaq-backup.py lines 16-29): accept when some accept pattern matches,
otherwise reject when some reject pattern matches, otherwise accept.  An
absent (`None`) pattern list behaves as the empty list. -/
def matches' (value : String) (accepts rejects : List String) : Bool :=
  if anyMatch value accepts then true
  else if anyMatch value rejects then false
  else true

/-- The collection branch of `matches'` (src/zpaq-backup.py lines 30-34):
every element must pass the single-value rule. -/
def matchesAll (values : List String) (accepts rejects : List String) : Bool :=
  match values with
  | [] => true
  | v :: rest =>
    if !(matches' v accepts rejects) then false else matchesAll rest accepts rejects

theorem anyMatch_iff (value : String) (l : List String) :
    anyMatch value l = true ↔ ∃ p ∈ l, fnmatch value p = true := by
  induction l with
  | nil => simp [anyMatch]
  | cons pat rest ih =>
    cases hf : fnmatch value pat with
    | true => simp [anyMatch, hf]
    | false => simp [anyMatch, hf, ih]

theorem anyMatch_eq_false_iff (value : String) (l : List String) :
    anyMatch value l = false ↔ ∀ p ∈ l, fnmatch value p = false := by
  have h := anyMatch_iff value l
  constructor
  · intro hfalse p hp
    cases hfp : fnmatch value p with
    | true =>
      have : anyMatch value l = true := h.mpr ⟨p, hp, hfp⟩
      simp [this] at hfalse
    | false => rfl
  · intro hall
    cases hm : anyMatch value l with
    | true =>
      obtain ⟨p, hp, hfp⟩ := h.mp hm
      have := hall p hp
      simp [this] at hfp
    | false => rfl

/-- Claim C1: `matches'(value, accepts, rejects)` is true exactly when some
accept pattern matches the value or no reject pattern matches it.  In
particular the result is true when both lists are empty, a matching accept
pattern forces true regardless of the rejects, and otherwise a matching
reject pattern forces false. -/
theorem matches_spec (value : String) (accepts rejects : List String) :
    matches' value accepts rejects = true ↔
      (∃ p ∈ accepts, fnmatch value p = true) ∨
        (∀ p ∈ rejects, fnmatch value p = false) := by
  unfold matches'
  constructor
  · intro h
    cases ha : anyMatch value accepts with
    | true => exact Or.inl ((anyMatch_iff value accepts).mp ha)
    | false =>
      cases hr : anyMatch value rejects with
      | true => rw [ha, hr] at h; simp at h
      | false => exact Or.inr ((anyMatch_eq_false_iff value rejects).mp hr)
  · intro h
    rcases h with hacc | hrej
    · rw [(anyMatch_iff value accepts).mpr hacc]
      simp
    · cases ha : anyMatch value accepts with
      | true => simp
      | false =>
        rw [(anyMatch_eq_false_iff value rejects).mpr hrej]
        simp

/-- A modelled filesystem: for each directory (an absolute path, given as a
list of segments) the names of its entries, in `os.listdir` order.  A path
is a directory exactly when it appears as a key. -/
abbrev Fs : Type := List (List String × List String)

/-- `os.listdir(p)` in the model: the listing stored for `p`, empty when `p`
stores none. -/
def listdir (fs : Fs) (p : List String) : List String :=
  match fs.find? (fun e => e.1 == p) with
  | some e => e.2
  | none => []

/-- `os.path.isdir(p)` in the model: `p` is a directory exactly when the
filesystem stores a listing for it. -/
def isdir (fs : Fs) (p : List String) : Bool :=
  (fs.find? (fun e => e.1 == p)).isSome

/-- The body of one `walk` loop iteration (src/zpaq-backup.py lines 91-97):
scan the listing of the popped directory in order; an entry failing
`matches'` is skipped, a passing directory is collected for pushing, a
passing non-directory is yielded.  Returns the yielded paths and the
directories to push, both in listing order. -/
def processNames (accepts rejects : List String) (fs : Fs)
    (base : List String) : List String → List (List String) × List (List String)
  | [] => ([], [])
  | nm :: rest =>
    let pr := processNames accepts rejects fs base rest
    if matches' nm accepts rejects then
      if isdir fs (base ++ [nm]) then (pr.1, (base ++ [nm]) :: pr.2)
      else ((base ++ [nm]) :: pr.1, pr.2)
    else pr

/-- Fuelled traversal loop of `walk` (src/zpaq-backup.py lines 85-97).  The
stack head is the most recently pushed directory (`queue.pop()` takes the
Python list's last element), and the directories appended by one iteration
are reversed onto the stack so that they pop in the order the source's
successive `append` calls produce.  One fuel unit is spent per loop
iteration. -/
def walkLoopF (accepts rejects : List String) (fs : Fs) :
    Nat → List (List String) → List (List String)
  | 0, _ => []
  | _ + 1, [] => []
  | fuel + 1, base :: rest =>
    let pr := processNames accepts rejects fs base (listdir fs base)
    pr.1 ++ walkLoopF accepts rejects fs fuel (pr.2.reverse ++ rest)

/-- Fuel that dominates the loop's iteration count: one iteration pops one
path, and (for a filesystem, whose listings repeat no name) every pushed
path is pushed at most once, each push being licensed by one listing entry,
so the loop runs at most `1 + `(total number of listing entries) times. -/
def walkFuel (fs : Fs) : Nat :=
  1 + fs.foldr (fun e acc => 1 + e.2.length + acc) 0

/-- `walk(path, accepts, rejects)` (src/zpaq-backup.py lines 69-97, the
`implementation == 1` branch, the one the code takes): iteratively traverse
the filesystem from `root`, yielding the paths of entries whose every path
segment below the root passes `matches'`. -/
def walk (accepts rejects : List String) (fs : Fs)
    (root : List String) : List (List String) :=
  walkLoopF accepts rejects fs (walkFuel fs) [root]

theorem processNames_yield_mem (accepts rejects : List String) (fs : Fs)
    (base : List String) (names : List String) (p : List String)
    (hp : p ∈ (processNames accepts rejects fs base names).1) :
    ∃ nm, p = base ++ [nm] ∧ matches' nm accepts rejects = true := by
  induction names with
  | nil => simp [processNames] at hp
  | cons nm rest ih =>
    rw [processNames] at hp
    cases hm : matches' nm accepts rejects with
    | false => rw [hm] at hp; simp at hp; exact ih hp
    | true =>
      rw [hm] at hp
      cases hd : isdir fs (base ++ [nm]) with
      | true => simp [hd] at hp; exact ih hp
      | false =>
        simp [hd] at hp
        rcases hp with hp | hp
        · exact ⟨nm, hp, hm⟩
        · exact ih hp

theorem processNames_push_mem (accepts rejects : List String) (fs : Fs)
    (base : List String) (names : List String) (q : List String)
    (hq : q ∈ (processNames accepts rejects fs base names).2) :
    ∃ nm, q = base ++ [nm] ∧ matches' nm accepts rejects = true := by
  induction names with
  | nil => simp [processNames] at hq
  | cons nm rest ih =>
    rw [processNames] at hq
    cases hm : matches' nm accepts rejects with
    | false => rw [hm] at hq; simp at hq; exact ih hq
    | true =>
      rw [hm] at hq
      cases hd : isdir fs (base ++ [nm]) with
      | false => simp [hd] at hq; exact ih hq
      | true =>
        simp [hd] at hq
        rcases hq with hq | hq
        · exact ⟨nm, hq, hm⟩
        · exact ih hq

theorem walkLoopF_sound (accepts rejects : List String) (fs : Fs)
    (root : List String) :
    ∀ (fuel : Nat) (stack : List (List String)),
      (∀ q ∈ stack, ∃ suffix, q = root ++ suffix ∧
        ∀ s ∈ suffix, matches' s accepts rejects = true) →
      ∀ p ∈ walkLoopF accepts rejects fs fuel stack,
        ∃ suffix, p = root ++ suffix ∧
          ∀ s ∈ suffix, matches' s accepts rejects = true := by
  intro fuel
  induction fuel with
  | zero => intro stack hstack p hp; simp [walkLoopF] at hp
  | succ f ih =>
    intro stack hstack p hp
    match stack with
    | [] => simp [walkLoopF] at hp
    | base :: rest =>
      obtain ⟨suffix0, hbase, hall0⟩ := hstack base (List.mem_cons_self _ _)
      rw [walkLoopF] at hp
      rcases List.mem_append.mp hp with hy | hrec
      · obtain ⟨nm, hpnm, hm⟩ := processNames_yield_mem _ _ _ _ _ _ hy
        refine ⟨suffix0 ++ [nm], ?_, ?_⟩
        · rw [hpnm, hbase, List.append_assoc]
        · intro s hs
          rcases List.mem_append.mp hs with hs | hs
          · exact hall0 s hs
          · simp at hs; subst hs; exact hm
      · refine ih (((processNames accepts rejects fs base
          (listdir fs base)).2).reverse ++ rest) ?_ p hrec
        intro q hq
        rcases List.mem_append.mp hq with hq | hq
        · obtain ⟨nm, hqnm, hm⟩ :=
            processNames_push_mem _ _ _ _ _ _ (List.mem_reverse.mp hq)
          refine ⟨suffix0 ++ [nm], ?_, ?_⟩
          · rw [hqnm, hbase, List.append_assoc]
          · intro s hs
            rcases List.mem_append.mp hs with hs | hs
            · exact hall0 s hs
            · simp at hs; subst hs; exact hm
        · exact hstack q (List.mem_cons_of_mem _ hq)

/-- Claim C2: a directory entry whose bare name fails
`matches'(name, accepts, rejects)` is never part of the walk's output: a
name failing the filter occurs nowhere in any yielded path below the root,
so no yielded path names such an entry and no yielded path descends through
such a directory (for example, with reject pattern `*.tmp`, no yielded path
has a segment, final or intermediate, that glob-matches `*.tmp`). -/
theorem walk_excluded_never_yielded (accepts rejects : List String) (fs : Fs)
    (root : List String) (nm : String)
    (hnm : matches' nm accepts rejects = false)
    (p : List String) (hp : p ∈ walk accepts rejects fs root) :
    ¬ nm ∈ p.drop root.length := by
  obtain ⟨suffix, hps, hall⟩ :=
    walkLoopF_sound accepts rejects fs root (walkFuel fs) [root]
      (by
        intro q hq
        simp at hq
        exact ⟨[], by simp [hq], by simp⟩)
      p hp
  rw [hps, List.drop_left]
  intro hmem
  have := hall nm hmem
  rw [hnm] at this
  exact Bool.false_ne_true this

/-- Witness for C2 at a concrete filesystem: with reject list `["*.tmp"]`,
the directory `r/b.tmp` fails the filter, and the file `r/c.txt` inside it
is absent from the walk's output, whose only element is `r/a.txt`. -/
theorem walk_excluded_never_yielded_witness :
    matches' ("b.tmp") [] [("*.tmp")] = false ∧
      ¬ ("b.tmp") ∈ (["r", "a.txt"] : List String).drop
        (["r"] : List String).length :=
  ⟨by decide,
    walk_excluded_never_yielded [] [("*.tmp")]
      ([(["r"], [("b.tmp"), ("a.txt")]), (["r", "b.tmp"], [("c.txt")])])
      (["r"]) ("b.tmp") (by decide) (["r", "a.txt"]) (by decide)⟩

/-- The `batch` accumulator loop (src/zpaq-backup.py lines 109-121): consume
the stream element by element; after each append, when the running counter
reaches `count`, emit the buffer and start a fresh one; on exhaustion emit
the current (possibly partial, possibly empty) buffer one last time.  The
counter `n` mirrors the source's `n` and always equals the buffer length. -/
def batchRun {α : Type} (count : Nat) : List α → List α → Nat → List (List α)
  | [], buf, _ => [buf]
  | x :: rest, buf, n =>
    if n + 1 = count then (buf ++ [x]) :: batchRun count rest [] 0
    else batchRun count rest (buf ++ [x]) (n + 1)

/-- `batch(stream, count)` (src/zpaq-backup.py lines 109-121); the source's
default capacity is 10000, and `zpaq_add` passes 10000 explicitly. -/
def batch {α : Type} (stream : List α) (count : Nat) : List (List α) :=
  batchRun count stream [] 0

theorem batchRun_ne_nil {α : Type} (count : Nat) :
    ∀ (l buf : List α) (n : Nat), batchRun count l buf n ≠ [] := by
  intro l
  induction l with
  | nil => intro buf n; simp [batchRun]
  | cons x rest ih =>
    intro buf n
    rw [batchRun]
    split
    · simp
    · exact ih _ _

theorem batchRun_join {α : Type} (count : Nat) :
    ∀ (l buf : List α) (n : Nat),
      (batchRun count l buf n).flatten = buf ++ l := by
  intro l
  induction l with
  | nil => intro buf n; simp [batchRun]
  | cons x rest ih =>
    intro buf n
    rw [batchRun]
    split
    · simp [ih]
    · simp [ih]

theorem batchRun_shape {α : Type} (count : Nat) (hk : 1 ≤ count) :
    ∀ (l buf : List α) (n : Nat), n = buf.length → n < count →
      (batchRun count l buf n).length = (n + l.length) / count + 1 ∧
      (∀ b ∈ (batchRun count l buf n).dropLast, b.length = count) ∧
      Option.map List.length (batchRun count l buf n).getLast? =
        some ((n + l.length) % count) := by
  intro l
  induction l with
  | nil =>
    intro buf n hn hlt
    refine ⟨?_, ?_, ?_⟩
    · simp [batchRun, Nat.div_eq_of_lt hlt]
    · simp [batchRun]
    · simp [batchRun, ← hn, Nat.mod_eq_of_lt hlt]
  | cons x rest ih =>
    intro buf n hn hlt
    rw [batchRun]
    by_cases h : n + 1 = count
    · rw [if_pos h]
      obtain ⟨ihlen, ihdrop, ihlast⟩ := ih [] 0 rfl (by omega)
      simp only [Nat.zero_add] at ihlen ihlast
      have hne := batchRun_ne_nil (α := α) count rest [] 0
      obtain ⟨r0, rs, hrec⟩ := List.exists_cons_of_ne_nil hne
      have hdiv : (n + (rest.length + 1)) / count = rest.length / count + 1 := by
        rw [show n + (rest.length + 1) = rest.length + count by omega]
        exact Nat.add_div_right _ (by omega)
      have hmod : (n + (rest.length + 1)) % count = rest.length % count := by
        rw [show n + (rest.length + 1) = rest.length + count by omega]
        exact Nat.add_mod_right _ _
      refine ⟨?_, ?_, ?_⟩
      · simp only [List.length_cons, ihlen, hdiv]
      · intro b hb
        rw [hrec, List.dropLast_cons₂] at hb
        rcases List.mem_cons.mp hb with hb | hb
        · subst hb
          simp [← hn]
          omega
        · exact ihdrop b (by rw [hrec]; exact hb)
      · rw [hrec, List.getLast?_cons_cons, ← hrec, ihlast, List.length_cons,
          hmod]
    · rw [if_neg h]
      have harith : n + 1 + rest.length = n + (rest.length + 1) := by omega
      obtain ⟨ihlen, ihdrop, ihlast⟩ :=
        ih (buf ++ [x]) (n + 1) (by simp [hn]) (by omega)
      rw [harith] at ihlen ihlast
      exact ⟨ihlen, ihdrop, ihlast⟩

/-- Claim C3: for any capacity of at least one, concatenating in order all
batches yielded by `batch(seq, k)` reproduces `seq` exactly (no loss, no
duplication, original order), and the empty sequence yields exactly one
empty batch. -/
theorem batch_join_eq (α : Type) (seq : List α) (k : Nat) (_hk : 1 ≤ k) :
    (batch seq k).flatten = seq ∧ batch ([] : List α) k = [[]] := by
  refine ⟨?_, rfl⟩
  simpa using batchRun_join k seq [] 0

/-- Witness for C3 at a concrete sequence and capacity. -/
theorem batch_join_eq_witness :
    1 ≤ 2 ∧ ((batch [(1 : Nat), 2, 3] 2).flatten = [1, 2, 3] ∧
      batch ([] : List Nat) 2 = [[]]) :=
  ⟨by decide, batch_join_eq Nat [1, 2, 3] 2 (by decide)⟩

/-- Claim C10: with capacity `k ≥ 1`, when the source length is a positive
exact multiple of `k` the generator yields `length / k` full batches of size
`k` followed by one additional final empty batch; in general a non-final
batch is never empty, and the final batch is empty only when the source
supplied a multiple of `k` elements (zero elements after the last full
batch). -/
theorem batch_full_multiple_shape (α : Type) (seq : List α) (k : Nat)
    (hk : 1 ≤ k) :
    (k ∣ seq.length → 0 < seq.length →
      (batch seq k).length = seq.length / k + 1 ∧
      (∀ b ∈ (batch seq k).dropLast, b.length = k) ∧
      (batch seq k).getLast? = some []) ∧
    (∀ b ∈ (batch seq k).dropLast, b ≠ []) ∧
    (∀ lastB, (batch seq k).getLast? = some lastB → lastB = [] →
      seq.length % k = 0) := by
  obtain ⟨hlen0, hdrop0, hlast0⟩ :=
    batchRun_shape k hk seq [] 0 rfl (by omega)
  simp only [Nat.zero_add] at hlen0 hlast0
  have hlen : (batch seq k).length = seq.length / k + 1 := hlen0
  have hdrop : ∀ b ∈ (batch seq k).dropLast, b.length = k := hdrop0
  have hlast : Option.map List.length (batch seq k).getLast? =
      some (seq.length % k) := hlast0
  refine ⟨?_, ?_, ?_⟩
  · intro hdvd _hpos
    refine ⟨hlen, hdrop, ?_⟩
    obtain ⟨c, hc⟩ := hdvd
    have h0 : seq.length % k = 0 := by rw [hc]; exact Nat.mul_mod_right k c
    cases hgl : (batch seq k).getLast? with
    | none => rw [hgl] at hlast; simp at hlast
    | some b =>
      rw [hgl, h0] at hlast
      have hb : b.length = 0 := by simpa using hlast
      rw [List.length_eq_zero.mp hb]
  · intro b hb hbnil
    have hlb := hdrop b hb
    rw [hbnil] at hlb
    simp at hlb
    omega
  · intro lastB hgl hnil
    rw [hgl, hnil] at hlast
    simp at hlast
    omega

/-- Witness for C10 at a concrete sequence whose length is a positive
multiple of the capacity. -/
theorem batch_full_multiple_shape_witness :
    1 ≤ 2 ∧
      (batch [(1 : Nat), 2, 3, 4] 2).length =
        ([(1 : Nat), 2, 3, 4]).length / 2 + 1 ∧
      (batch [(1 : Nat), 2, 3, 4] 2).getLast? = some [] :=
  ⟨by decide,
    ((batch_full_multiple_shape Nat [1, 2, 3, 4] 2 (by decide)).1
      (by decide) (by decide)).1,
    ((batch_full_multiple_shape Nat [1, 2, 3, 4] 2 (by decide)).1
      (by decide) (by decide)).2.2⟩

/-- Whether a string starts with the character `c`. -/
def startsWithChar (c : Char) (s : String) : Bool :=
  match s.toList with
  | [] => false
  | a :: _ => a == c

/-- Python `s.split(sep)` for a one-character separator: the groups of
characters between separator occurrences, with empty groups kept (so the
result always has one more group than there are separators). -/
def pySplitChar (sep : Char) : List Char → List (List Char)
  | [] => [[]]
  | c :: rest =>
    match pySplitChar sep rest with
    | [] => [[]]
    | g :: gs => if c = sep then [] :: g :: gs else (c :: g) :: gs

/-- `s.split(sep)[0]`: the first group of the split. -/
def splitFirst (sep : Char) (s : String) : String :=
  match pySplitChar sep s.toList with
  | [] => String.mk []
  | g :: _ => String.mk g

theorem pySplitChar_head (sep : Char) (l : List Char) :
    ∃ gs, pySplitChar sep l = (l.takeWhile (fun c => c != sep)) :: gs := by
  induction l with
  | nil => exact ⟨[], rfl⟩
  | cons c rest ih =>
    obtain ⟨gs, hgs⟩ := ih
    by_cases h : c = sep
    · refine ⟨(rest.takeWhile (fun x => x != sep)) :: gs, ?_⟩
      rw [pySplitChar, hgs]
      simp [h, List.takeWhile_cons]
    · refine ⟨gs, ?_⟩
      rw [pySplitChar, hgs]
      simp [List.takeWhile_cons, h]

/-- The basename of the incremental volume pattern: the archive file name up
to its first dot, followed by the literal `-???.zpaq` (the f-string pieces
of src/zpaq-backup.py line 127 after the directory part). -/
def volumeBasePat (archive : String × String) : String :=
  splitFirst '.' archive.2 ++ ("-???.zpaq")

/-- `zpaq_path(archive, incremental)` (src/zpaq-backup.py lines 124-130).
An archive path is modelled as the pair of its absolute parent directory
and its file name; `archive.name.split('.')[0]` is `splitFirst`, and with
`incremental` the result is the f-string
`parent / name-before-first-dot ++ -???.zpaq`. -/
def zpaq_path (archive : String × String) (incremental : Bool) : String :=
  if incremental then archive.1 ++ ("/") ++ volumeBasePat archive
  else archive.1 ++ ("/") ++ archive.2

/-- Claim C7: for an archive whose file name contains at least one dot, the
incremental form is the absolute parent directory joined with the name's
text before its first dot followed by the literal `-???.zpaq`; with
`incremental` false the result is the literal absolute archive path. -/
theorem zpaq_path_spec (parent name : String)
    (_hdot : '.' ∈ name.toList) :
    zpaq_path (parent, name) true =
      parent ++ ("/") ++
        String.mk (name.toList.takeWhile (fun c => c != '.')) ++
        ("-???.zpaq") ∧
    zpaq_path (parent, name) false = parent ++ ("/") ++ name := by
  refine ⟨?_, rfl⟩
  obtain ⟨gs, hgs⟩ := pySplitChar_head '.' name.toList
  have hsf : splitFirst '.' name =
      String.mk (name.toList.takeWhile (fun c => c != '.')) := by
    unfold splitFirst
    rw [hgs]
  simp only [zpaq_path, volumeBasePat, hsf, if_true, String.append_assoc]

/-- Witness for C7 at a concrete archive name with two dots-free prefix. -/
theorem zpaq_path_spec_witness :
    '.' ∈ ("xxx-archive.zpaq").toList ∧
      zpaq_path (("/d"), ("xxx-archive.zpaq")) true =
        ("/d") ++ ("/") ++
          String.mk (("xxx-archive.zpaq").toList.takeWhile
            (fun c => c != '.')) ++ ("-???.zpaq") :=
  ⟨by decide, (zpaq_path_spec ("/d") ("xxx-archive.zpaq") (by decide)).1⟩

/-- The leading-dot test of `glob`'s hidden-file rule. -/
def isHidden (s : String) : Bool :=
  startsWithChar '.' s

/-- Whether `glob` lists the directory entry `nm` under the basename
pattern `pat`: hidden entries (leading dot) are matched only when the
pattern itself starts with a dot; otherwise plain `fnmatch`. -/
def globName (pat nm : String) : Bool :=
  if isHidden pat then fnmatch nm pat
  else (!(isHidden nm)) && fnmatch nm pat

/-- `glob.glob` restricted to the single-directory patterns
`zpaq_increments` builds: such a pattern splits at its final slash into the
literal parent directory and a wildcard basename (`volumeBasePat`); `glob`
scans that directory's listing in order and keeps the matching names — it
does not sort. -/
def globDir (listing : List String) (pat : String) : List String :=
  listing.filter (fun nm => globName pat nm)

/-- `zpaq_increments(archive)` (src/zpaq-backup.py lines 133-140): the glob
expansion of the incremental pattern (full paths, listing order) when it is
non-empty, else the literal archive path when that file exists, else the
empty list.  `listing` is the listing of the archive's parent directory, so
the archive file exists exactly when its name is listed; the source's
walrus binding `increments := ...` is inlined. -/
def zpaq_increments (archive : String × String) (listing : List String) :
    List String :=
  if (globDir listing (volumeBasePat archive)).map
      (fun nm => archive.1 ++ ("/") ++ nm) ≠ [] then
    (globDir listing (volumeBasePat archive)).map
      (fun nm => archive.1 ++ ("/") ++ nm)
  else if archive.2 ∈ listing then [archive.1 ++ ("/") ++ archive.2]
  else []

/-- Counterexample to claim C6 as stated: `glob` preserves directory-listing
order and sorts nothing, so a listing that reports `xxx-archive-001.zpaq`
before `xxx-archive-000.zpaq` produces the two paths in that listing order —
not the filename order, which (for these names, under any character order
with 0 before 1) would put the `000` volume first. -/
theorem zpaq_increments_order_counterexample :
    zpaq_increments (("/d"), ("xxx-archive.zpaq"))
        [("xxx-archive-001.zpaq"), ("xxx-archive-000.zpaq")] =
      [("/d/xxx-archive-001.zpaq"), ("/d/xxx-archive-000.zpaq")] ∧
    zpaq_increments (("/d"), ("xxx-archive.zpaq"))
        [("xxx-archive-001.zpaq"), ("xxx-archive-000.zpaq")] ≠
      [("/d/xxx-archive-000.zpaq"), ("/d/xxx-archive-001.zpaq")] :=
  ⟨by decide, by decide⟩

/-- Claim C6 amended: `zpaq_increments` returns the existing files matching
the incremental wildcard pattern in the order the directory listing supplies
them (glob order, not necessarily sorted by filename); when no file matches,
it returns the single literal archive path if that file exists, and the
empty list otherwise. -/
theorem zpaq_increments_spec (archive : String × String)
    (listing : List String) :
    ((∃ nm ∈ listing, globName (volumeBasePat archive) nm = true) →
      zpaq_increments archive listing =
        (globDir listing (volumeBasePat archive)).map
          (fun nm => archive.1 ++ ("/") ++ nm) ∧
      zpaq_increments archive listing ≠ []) ∧
    ((∀ nm ∈ listing, globName (volumeBasePat archive) nm = false) →
      (archive.2 ∈ listing →
        zpaq_increments archive listing =
          [archive.1 ++ ("/") ++ archive.2]) ∧
      (archive.2 ∉ listing → zpaq_increments archive listing = [])) := by
  constructor
  · intro hex
    obtain ⟨nm, hmem, hm⟩ := hex
    have hne : (globDir listing (volumeBasePat archive)).map
        (fun nm => archive.1 ++ ("/") ++ nm) ≠ [] := by
      intro hnil
      rw [List.map_eq_nil_iff] at hnil
      have : nm ∈ globDir listing (volumeBasePat archive) :=
        List.mem_filter.mpr ⟨hmem, hm⟩
      rw [hnil] at this
      simp at this
    constructor
    · unfold zpaq_increments
      rw [if_pos hne]
    · unfold zpaq_increments
      rw [if_pos hne]
      exact hne
  · intro hall
    have hnil : (globDir listing (volumeBasePat archive)).map
        (fun nm => archive.1 ++ ("/") ++ nm) = [] := by
      rw [List.map_eq_nil_iff, globDir, List.filter_eq_nil_iff]
      intro nm hmem
      simp [hall nm hmem]
    constructor
    · intro hmem
      unfold zpaq_increments
      rw [if_neg (by simp [hnil]), if_pos hmem]
    · intro hmem
      unfold zpaq_increments
      rw [if_neg (by simp [hnil]), if_neg hmem]

/-- Witness for C6 (amended) at a concrete listing containing one matching
volume file. -/
theorem zpaq_increments_spec_witness :
    (∃ nm ∈ [("a-000.zpaq")],
        globName (volumeBasePat (("/d"), ("a.zpaq"))) nm = true) ∧
      zpaq_increments (("/d"), ("a.zpaq")) [("a-000.zpaq")] ≠ [] :=
  ⟨⟨("a-000.zpaq"), by decide, by decide⟩,
    ((zpaq_increments_spec (("/d"), ("a.zpaq")) [("a-000.zpaq")]).1
      ⟨("a-000.zpaq"), by decide, by decide⟩).2⟩

/-- The batch loop of `zpaq_add` (src/zpaq-backup.py lines 148-163),
abstracted over the archiver: `run b` is the exit status with which the
archiver invocation for batch `b` terminates, observed after the source
drains the process output and waits for it.  Returns the function's result
(`none` models the Python `None` the function returns by falling off the
loop, `some s` an explicit `return s`) paired with the list of batches for
which the archiver was invoked, in invocation order. -/
def zpaqAddLoop {α : Type} (run : List α → Int) :
    List (List α) → Option Int × List (List α)
  | [] => (none, [])
  | b :: rest =>
    if run b ≠ 0 then (some (run b), [b])
    else ((zpaqAddLoop run rest).1, b :: (zpaqAddLoop run rest).2)

/-- `zpaq_add(archive, root, contents)` (src/zpaq-backup.py lines 145-164):
batch the contents with capacity 10000 and run the archiver loop. -/
def zpaq_add {α : Type} (run : List α → Int) (contents : List α) :
    Option Int × List (List α) :=
  zpaqAddLoop run (batch contents 10000)

/-- Claim C4: when the sequence of batches splits as `pre ++ b :: post`
with every batch in `pre` succeeding and `b` the first failing batch, the
add loop returns `b`'s non-zero exit status and invokes the archiver
exactly for `pre ++ [b]` — for no batch after the failure. -/
theorem zpaq_add_first_failure (α : Type) (run : List α → Int)
    (pre : List (List α)) (b : List α) (post : List (List α))
    (hpre : ∀ x ∈ pre, run x = 0) (hb : run b ≠ 0) :
    zpaqAddLoop run (pre ++ b :: post) = (some (run b), pre ++ [b]) := by
  induction pre with
  | nil =>
    rw [List.nil_append, zpaqAddLoop, if_pos hb]
    rfl
  | cons x pre ih =>
    have hx : run x = 0 := hpre x (List.mem_cons_self _ _)
    rw [List.cons_append, zpaqAddLoop, if_neg (by simp [hx]),
      ih (fun y hy => hpre y (List.mem_cons_of_mem _ hy))]
    simp

/-- Witness for C4: three batches, the second made to fail with status 2;
the result is status 2 and the third batch is never invoked. -/
theorem zpaq_add_first_failure_witness :
    (∀ x ∈ [[(1 : Nat)]],
        (fun l => if l = [(2 : Nat)] then (2 : Int) else 0) x = 0) ∧
      zpaqAddLoop (fun l => if l = [(2 : Nat)] then (2 : Int) else 0)
          ([[(1 : Nat)]] ++ [(2 : Nat)] :: [[(3 : Nat)]]) =
        (some ((fun l => if l = [(2 : Nat)] then (2 : Int) else 0)
          [(2 : Nat)]), [[(1 : Nat)]] ++ [[(2 : Nat)]]) :=
  ⟨by decide,
    zpaq_add_first_failure Nat
      (fun l => if l = [(2 : Nat)] then (2 : Int) else 0)
      [[(1 : Nat)]] [(2 : Nat)] [[(3 : Nat)]] (by decide) (by decide)⟩

/-- Claim C5 exhibits a defect of the source: with contents whose batches
all succeed — here the empty contents, which give the single empty batch
and one succeeding invocation — `zpaq_add` falls off its loop and returns
the Python `None`, not the zero/success status promised by the spec and by
the function's own `-> int` annotation. -/
theorem zpaq_add_success_returns_none :
    zpaq_add (fun _ => (0 : Int)) ([] : List Nat) = (none, [[]]) := by
  decide

/-- Python whitespace for `str.strip()` (the ASCII whitespace characters;
the source's patterns are ASCII). -/
def isPySpace (c : Char) : Bool :=
  c == ' ' || c == '\t' || c == '\n' || c == '\x0b' || c == '\x0c' || c == '\r'

/-- Python `s.strip()`: drop leading and trailing whitespace. -/
def pyStrip (s : String) : String :=
  String.mk (((s.toList.dropWhile isPySpace).reverse.dropWhile
    isPySpace).reverse)

/-- Python `s.rstrip(chr(10))`: drop trailing newline characters. -/
def pyRstripNl (s : String) : String :=
  String.mk ((s.toList.reverse.dropWhile (fun c => c == '\n')).reverse)

/-- `gitignored(path)` (src/zpaq-backup.py lines 51-62) applied to the lines
`readlines` returns: each line is stripped (`strip` then `rstrip` of the
newline); lines whose stripped form starts with `#` are skipped; every
other stripped line — blank lines included — is appended as a pattern. -/
def gitignored (lines : List String) : List String :=
  match lines with
  | [] => []
  | l :: rest =>
    let p := pyRstripNl (pyStrip l)
    if startsWithChar '#' p then gitignored rest
    else p :: gitignored rest

/-- Counterexample to claim C8 as stated: a blank line is not skipped — it
contributes the empty pattern, so a three-line file with one blank line
yields three patterns, not two. -/
theorem gitignored_blank_counterexample :
    gitignored [("a\n"), ("\n"), ("b\n")] = [("a"), (""), ("b")] ∧
      ("") ∈ gitignored [("a\n"), ("\n"), ("b\n")] :=
  ⟨by decide, by decide⟩

/-- Claim C8 amended: `gitignored` keeps exactly one pattern for every line
whose stripped form does not start with `#` — blank lines included, which
contribute the empty pattern — each pattern being its line with surrounding
whitespace and trailing newline stripped; `#`-lines are skipped. -/
theorem gitignored_spec (lines : List String) :
    gitignored lines =
      (lines.map (fun l => pyRstripNl (pyStrip l))).filter
        (fun p => !(startsWithChar '#' p)) := by
  induction lines with
  | nil => rfl
  | cons l rest ih =>
    cases hs : startsWithChar '#' (pyRstripNl (pyStrip l)) with
    | true => simp [gitignored, hs, ih, List.filter_cons]
    | false => simp [gitignored, hs, ih, List.filter_cons]

/-- The Python comparison `path != user_home` (src/zpaq-backup.py line 44)
compares a `pathlib.Path` with an `Optional[str]`.  In Python, equality
between a `Path` and a string (or `None`) is always false — `Path.__eq__`
returns `NotImplemented` for a non-`Path` operand and the fallback is
object identity — so the loop's equality test never holds.  The model keeps
the operands at their two distinct types and returns the constant answer
the source's comparison produces. -/
def pathEqOptStr (_path : List String) (_home : Option String) : Bool :=
  false

/-- The ancestor loop of `dotfile` (src/zpaq-backup.py lines 41-47): while
the path has a parent, return `path/name` when that file exists; otherwise
step to the parent unless the path equals the home value — a comparison
`pathEqOptStr` never reports, so the break is unreachable.  `files` is the
list of existing paths; one fuel unit is spent per iteration, and
`path.length` iterations reach the root. -/
def dotfileGo (files : List (List String)) (name : String)
    (home : Option String) : Nat → List String → Option (List String)
  | 0, _ => none
  | fuel + 1, path =>
    if path = [] then none
    else if (path ++ [name]) ∈ files then some (path ++ [name])
    else if pathEqOptStr path home then none
    else dotfileGo files name home fuel path.dropLast

/-- `dotfile(name, base)` (src/zpaq-backup.py lines 37-48): search for
`name` upward from the absolute directory `base`; `home` is the value of
`$HOME`.  A path is the list of its segments, the empty list is the
filesystem root, and `dropLast` is `path.parent`. -/
def dotfile (files : List (List String)) (name : String)
    (home : Option String) (base : List String) : Option (List String) :=
  dotfileGo files name home base.length base

/-- Claim C9 exhibits a defect of the source: because `path != user_home`
compares a `Path` with a string, it always holds and the loop never breaks
at the home directory, so the upward search escapes `$HOME` and continues
to the filesystem root.  From base `/home/u/proj` with home `/home/u` and
the file `.gitignore` existing only at `/home/.gitignore` — above the home
directory — `dotfile` finds and returns `/home/.gitignore`, where the claim
requires the search to stop at `/home/u` and return `None`. -/
theorem dotfile_escapes_home :
    dotfile [["home", (".gitignore")]] ((".gitignore")) (some ("/home/u"))
        ["home", ("u"), ("proj")] = some ["home", (".gitignore")] := by
  decide

end ZpaqBackup
